import Mathlib

/-!
Shallow embedding of the `Pose` rigid-body transform utility
(`estimator/src/estimator/pose.cpp`) over exact real arithmetic.
C++ `double` values are modelled as real numbers; Eigen's
`Quaterniond` is modelled by Mathlib's quaternions `ℍ[ℝ]` (with
`re = w`, `imI = x`, `imJ = y`, `imK = z`; Eigen's quaternion
product is the Hamilton product, matching Mathlib's).
-/

open Quaternion

noncomputable section

/-- 3-vector (`Eigen::Vector3d`). -/
@[ext] structure V3 where
  x : ℝ
  y : ℝ
  z : ℝ

namespace V3

instance : Zero V3 := ⟨⟨0, 0, 0⟩⟩
instance : Add V3 := ⟨fun a b => ⟨a.x + b.x, a.y + b.y, a.z + b.z⟩⟩
instance : Neg V3 := ⟨fun a => ⟨-a.x, -a.y, -a.z⟩⟩
instance : SMul ℝ V3 := ⟨fun c a => ⟨c * a.x, c * a.y, c * a.z⟩⟩

@[simp] theorem zero_x : (0 : V3).x = 0 := rfl

@[simp] theorem zero_y : (0 : V3).y = 0 := rfl

@[simp] theorem zero_z : (0 : V3).z = 0 := rfl

@[simp] theorem add_x (a b : V3) : (a + b).x = a.x + b.x := rfl

@[simp] theorem add_y (a b : V3) : (a + b).y = a.y + b.y := rfl

@[simp] theorem add_z (a b : V3) : (a + b).z = a.z + b.z := rfl

@[simp] theorem neg_x (a : V3) : (-a).x = -a.x := rfl

@[simp] theorem neg_y (a : V3) : (-a).y = -a.y := rfl

@[simp] theorem neg_z (a : V3) : (-a).z = -a.z := rfl

@[simp] theorem smul_x (c : ℝ) (a : V3) : (c • a).x = c * a.x := rfl

@[simp] theorem smul_y (c : ℝ) (a : V3) : (c • a).y = c * a.y := rfl

@[simp] theorem smul_z (c : ℝ) (a : V3) : (c • a).z = c * a.z := rfl

/-- Cross product (`Eigen::Vector3d::cross`). -/
def cross (a b : V3) : V3 :=
  ⟨a.y * b.z - a.z * b.y, a.z * b.x - a.x * b.z, a.x * b.y - a.y * b.x⟩

/-- Componentwise division by a scalar (Eigen's `v /= c`). -/
def divR (a : V3) (c : ℝ) : V3 := ⟨a.x / c, a.y / c, a.z / c⟩

/-- Coordinate access, used when a vector is written into a matrix column. -/
def coord (a : V3) : Fin 3 → ℝ
  | 0 => a.x
  | 1 => a.y
  | 2 => a.z

end V3

/-- Alias for the quaternion type modelling `Eigen::Quaterniond`. -/
abbrev Quat := ℍ[ℝ]

/-- 3×3 real matrix (`Eigen::Matrix3d`). -/
abbrev Mat3 := Matrix (Fin 3) (Fin 3) ℝ

/-- 4×4 real matrix (`Eigen::Matrix4d`). -/
abbrev Mat4 := Matrix (Fin 4) (Fin 4) ℝ

/-- Vector (imaginary) part of a quaternion (`Eigen::Quaterniond::vec`). -/
def quatVec (q : Quat) : V3 := ⟨q.imI, q.imJ, q.imK⟩

/-- Pure (real-part-zero) quaternion built from a 3-vector. -/
def pureQuat (v : V3) : Quat := ⟨0, v.x, v.y, v.z⟩

/-- Eigen's quaternion-vector product `q * v`
(`Quaternion::_transformVector`): `uv = 2 (vec × v)`, result
`v + w • uv + vec × uv`. -/
def quatRotate (q : Quat) (v : V3) : V3 :=
  let uv : V3 := (2 : ℝ) • (quatVec q).cross v
  v + q.re • uv + (quatVec q).cross uv

/-- Eigen's `Quaterniond::normalize`: divide all coefficients by the norm. -/
def qnormalize (q : Quat) : Quat := ‖q‖⁻¹ • q

/-- Eigen's `Quaterniond::inverse`: conjugate divided by the squared norm. -/
def eigenQuatInv (q : Quat) : Quat := (normSq q)⁻¹ • star q

/-- Eigen's `Quaterniond::toRotationMatrix`
(`Eigen/src/Geometry/Quaternion.h`): `tx = 2x`, ..., `txy = (2y)x`, ...,
entries assembled from those products. -/
def toRotationMatrix (q : Quat) : Mat3 :=
  let tx := 2 * q.imI
  let ty := 2 * q.imJ
  let tz := 2 * q.imK
  let twx := tx * q.re
  let twy := ty * q.re
  let twz := tz * q.re
  let txx := tx * q.imI
  let txy := ty * q.imI
  let txz := tz * q.imI
  let tyy := ty * q.imJ
  let tyz := tz * q.imJ
  let tzz := tz * q.imK
  Matrix.of ![![1 - (tyy + tzz), txy - twz, txz + twy],
              ![txy + twz, 1 - (txx + tzz), tyz - twx],
              ![txz - twy, tyz + twx, 1 - (txx + tyy)]]

/-- The 4×4 matrix produced by `T_.setIdentity()` followed by writing `R`
into the top-left 3×3 block and `t` into the top-right 3×1 column. -/
def homogeneous (R : Mat3) (t : V3) : Mat4 :=
  Matrix.of fun i j =>
    if hi : (i : ℕ) < 3 then
      if hj : (j : ℕ) < 3 then R ⟨i, hi⟩ ⟨j, hj⟩ else t.coord ⟨i, hi⟩
    else
      if (j : ℕ) < 3 then 0 else 1

/-- Top-left 3×3 block of a 4×4 matrix (`T.topLeftCorner<3,3>()`). -/
def topLeft3 (T : Mat4) : Mat3 :=
  Matrix.of fun i j => T i.castSucc j.castSucc

/-- Eigen's rotation-matrix-to-quaternion conversion
(`Eigen::internal::quaternionbase_assign_impl` for a 3×3 matrix):
Shepperd's method, branching on the trace, otherwise on the largest
diagonal entry `i`, with `j = (i+1)%3`, `k = (j+1)%3`. -/
def eigenQuatOfMat3 (mat : Mat3) : Quat :=
  if 0 < mat 0 0 + mat 1 1 + mat 2 2 then
    let t := Real.sqrt (mat 0 0 + mat 1 1 + mat 2 2 + 1)
    let s := (1 / 2) / t
    ⟨(1 / 2) * t, (mat 2 1 - mat 1 2) * s, (mat 0 2 - mat 2 0) * s,
      (mat 1 0 - mat 0 1) * s⟩
  else if mat 2 2 > (if mat 1 1 > mat 0 0 then mat 1 1 else mat 0 0) then
    let t := Real.sqrt (mat 2 2 - mat 0 0 - mat 1 1 + 1)
    let s := (1 / 2) / t
    ⟨(mat 1 0 - mat 0 1) * s, (mat 0 2 + mat 2 0) * s, (mat 1 2 + mat 2 1) * s,
      (1 / 2) * t⟩
  else if mat 1 1 > mat 0 0 then
    let t := Real.sqrt (mat 1 1 - mat 2 2 - mat 0 0 + 1)
    let s := (1 / 2) / t
    ⟨(mat 0 2 - mat 2 0) * s, (mat 0 1 + mat 1 0) * s, (1 / 2) * t,
      (mat 2 1 + mat 1 2) * s⟩
  else
    let t := Real.sqrt (mat 0 0 - mat 1 1 - mat 2 2 + 1)
    let s := (1 / 2) / t
    ⟨(mat 2 1 - mat 1 2) * s, (1 / 2) * t, (mat 1 0 + mat 0 1) * s,
      (mat 2 0 + mat 0 2) * s⟩

/-- The part of a `nav_msgs::Odometry` message visible to the `Pose`
constructor: the seven geometric scalars, plus the remaining message
fields (header stamp, twist, covariances), which stand in here as extra
data the constructor may or may not read. -/
structure Odometry where
  orientation_w : ℝ
  orientation_x : ℝ
  orientation_y : ℝ
  orientation_z : ℝ
  position_x : ℝ
  position_y : ℝ
  position_z : ℝ
  header_stamp : ℝ
  twist_linear : V3
  twist_angular : V3
  pose_covariance : Fin 36 → ℝ
  twist_covariance : Fin 36 → ℝ

/-- Modelled from the spec: the class declaration (`pose.h`) is not in
`src/`; per the spec the time-offset constructor parameter defaults to 0
("time_offset=0") and a constructor that does not set the time offset
leaves it at 0 ("no time offset set (defaults to 0)"). -/
def defaultTd : ℝ := 0

/-- The quaternion `Eigen::Quaterniond(w, x, y, z)` built from the four
orientation scalars of an odometry record. -/
def odomQuat (odom : Odometry) : Quat :=
  ⟨odom.orientation_w, odom.orientation_x, odom.orientation_y, odom.orientation_z⟩

/-- The `Pose` value: rotation quaternion `q_`, translation `t_`, cached
homogeneous transform `T_`, time offset `td_`. -/
structure Pose where
  q_ : Quat
  t_ : V3
  T_ : Mat4
  td_ : ℝ

namespace Pose

/-- `Pose::Pose()`: identity quaternion, zero translation, identity
matrix, zero time offset. -/
def identity : Pose := ⟨1, 0, 1, 0⟩

/-- `Pose::Pose(const Eigen::Quaterniond &, const Eigen::Vector3d &, const double &)`:
stores the normalized quaternion and rebuilds the cached transform from it. -/
def ofQuat (q : Quat) (t : V3) (td : ℝ) : Pose :=
  let qn := qnormalize q
  ⟨qn, t, homogeneous (toRotationMatrix qn) t, td⟩

/-- `Pose::Pose(const Eigen::Matrix3d &, const Eigen::Vector3d &, const double &)`:
converts `R` to a quaternion (Eigen's conversion, no renormalization
afterwards) and writes `R` itself into the cache's rotation block. -/
def ofMat3 (R : Mat3) (t : V3) (td : ℝ) : Pose :=
  ⟨eigenQuatOfMat3 R, t, homogeneous R t, td⟩

/-- `Pose::Pose(const Eigen::Matrix4d &, const double &)`: quaternion from
the top-left block, then normalized; translation from the top-right
column; the cache is the input matrix copied verbatim. -/
def ofMat4 (T : Mat4) (td : ℝ) : Pose :=
  ⟨qnormalize (eigenQuatOfMat3 (topLeft3 T)), ⟨T 0 3, T 1 3, T 2 3⟩, T, td⟩

/-- `Pose::Pose(const nav_msgs::Odometry &)`: quaternion from the four
orientation scalars (`w,x,y,z` constructor order), translation from the
three position scalars; no normalization; the cache is rebuilt; the time
offset is never assigned, so it keeps its default. -/
def ofOdom (odom : Odometry) : Pose :=
  let q : Quat := odomQuat odom
  let t : V3 := ⟨odom.position_x, odom.position_y, odom.position_z⟩
  ⟨q, t, homogeneous (toRotationMatrix q) t, defaultTd⟩

/-- `Pose::poseTransform(pose1, pose2)`: `Pose(q1*q2, q1*t2 + t1)`, the
time-offset argument left at its default. -/
def poseTransform (pose1 pose2 : Pose) : Pose :=
  ofQuat (pose1.q_ * pose2.q_) (quatRotate pose1.q_ pose2.t_ + pose1.t_) defaultTd

/-- `Pose::inverse()`: `Pose(q_.inverse(), -(q_.inverse() * t_))` with
Eigen's quaternion inverse. -/
def inverse (p : Pose) : Pose :=
  ofQuat (eigenQuatInv p.q_) (-(quatRotate (eigenQuatInv p.q_) p.t_)) defaultTd

/-- `Pose::operator*(const Pose &)`: `Pose(q_*pose.q_, q_*pose.t_+t_)`,
with `this` as the outer transform. -/
def mulOp (p pose : Pose) : Pose :=
  ofQuat (p.q_ * pose.q_) (quatRotate p.q_ pose.t_ + p.t_) defaultTd

instance : Mul Pose := ⟨mulOp⟩

end Pose

/-- The accumulated `weight_total` of `computeMeanPose`. -/
def weightTotal (pose_array : List (ℝ × Pose)) : ℝ :=
  pose_array.foldl (fun acc wp => acc + wp.1) 0

/-- `computeMeanPose`: weighted componentwise averaging of the
translations and of the four quaternion coefficients, each sum divided by
the total weight, then a `Pose` built from `Quaterniond(w,x,y,z)` and the
mean translation (the constructor renormalizes the averaged quaternion).
The per-entry diagnostic `std::cout` is console I/O and is not modelled. -/
def computeMeanPose (pose_array : List (ℝ × Pose)) : Pose :=
  let weight_total := weightTotal pose_array
  let t_sum := pose_array.foldl (fun acc wp => acc + wp.1 • wp.2.t_) (0 : V3)
  let t_mean := t_sum.divR weight_total
  let x := pose_array.foldl (fun acc wp => acc + wp.1 * wp.2.q_.imI) 0
  let y := pose_array.foldl (fun acc wp => acc + wp.1 * wp.2.q_.imJ) 0
  let z := pose_array.foldl (fun acc wp => acc + wp.1 * wp.2.q_.imK) 0
  let w := pose_array.foldl (fun acc wp => acc + wp.1 * wp.2.q_.re) 0
  let q_mean : Quat :=
    ⟨w / weight_total, x / weight_total, y / weight_total, z / weight_total⟩
  Pose.ofQuat q_mean t_mean defaultTd

/-- Consistency of the cached 4×4 transform with the canonical fields:
rotation block from the stored quaternion, translation column from the
stored vector, bottom row `(0 0 0 1)`. -/
def cacheConsistent (p : Pose) : Prop :=
  (∀ i j : Fin 3, p.T_ i.castSucc j.castSucc = toRotationMatrix p.q_ i j) ∧
  (∀ i : Fin 3, p.T_ i.castSucc 3 = p.t_.coord i) ∧
  (∀ j : Fin 4, p.T_ 3 j = if j = 3 then 1 else 0)

/-! Projection lemmas for the constructors. -/

@[simp] theorem Pose.ofQuat_q (q : Quat) (t : V3) (td : ℝ) :
    (Pose.ofQuat q t td).q_ = qnormalize q := rfl

@[simp] theorem Pose.ofQuat_t (q : Quat) (t : V3) (td : ℝ) :
    (Pose.ofQuat q t td).t_ = t := rfl

@[simp] theorem Pose.ofQuat_T (q : Quat) (t : V3) (td : ℝ) :
    (Pose.ofQuat q t td).T_ = homogeneous (toRotationMatrix (qnormalize q)) t := rfl

@[simp] theorem Pose.ofQuat_td (q : Quat) (t : V3) (td : ℝ) :
    (Pose.ofQuat q t td).td_ = td := rfl

@[simp] theorem Pose.ofOdom_q (o : Odometry) : (Pose.ofOdom o).q_ = odomQuat o := rfl

@[simp] theorem Pose.ofOdom_t (o : Odometry) :
    (Pose.ofOdom o).t_ = ⟨o.position_x, o.position_y, o.position_z⟩ := rfl

@[simp] theorem Pose.ofOdom_td (o : Odometry) : (Pose.ofOdom o).td_ = defaultTd := rfl

@[simp] theorem Pose.ofMat3_q (R : Mat3) (t : V3) (td : ℝ) :
    (Pose.ofMat3 R t td).q_ = eigenQuatOfMat3 R := rfl

@[simp] theorem Pose.ofMat3_t (R : Mat3) (t : V3) (td : ℝ) :
    (Pose.ofMat3 R t td).t_ = t := rfl

@[simp] theorem Pose.ofMat3_T (R : Mat3) (t : V3) (td : ℝ) :
    (Pose.ofMat3 R t td).T_ = homogeneous R t := rfl

@[simp] theorem Pose.ofMat4_q (T : Mat4) (td : ℝ) :
    (Pose.ofMat4 T td).q_ = qnormalize (eigenQuatOfMat3 (topLeft3 T)) := rfl

@[simp] theorem Pose.ofMat4_T (T : Mat4) (td : ℝ) : (Pose.ofMat4 T td).T_ = T := rfl

@[simp] theorem defaultTd_eq : defaultTd = 0 := rfl

/-! Algebraic facts about Eigen's quaternion-vector product. -/

/-- Eigen's `q * v` equals conjugation `q v q⋆` plus a defect that vanishes
for unit quaternions. -/
theorem quatRotate_eq_conj (q : Quat) (v : V3) :
    quatRotate q v = quatVec (q * pureQuat v * star q) + (1 - normSq q) • v := by
  ext <;>
    simp [quatRotate, quatVec, pureQuat, V3.cross, Quaternion.mul_re,
      Quaternion.mul_imI, Quaternion.mul_imJ, Quaternion.mul_imK, Quaternion.normSq_def'] <;>
    ring

theorem pureQuat_quatVec (a : Quat) (h : a.re = 0) : pureQuat (quatVec a) = a := by
  ext <;> simp [pureQuat, quatVec, h]

theorem re_mul_comm (a b : Quat) : (a * b).re = (b * a).re := by
  simp [Quaternion.mul_re]; ring

theorem conj_re_zero (q P : Quat) (hP : P.re = 0) (h : normSq q = 1) :
    (q * P * star q).re = 0 := by
  rw [re_mul_comm, ← mul_assoc, Quaternion.star_mul_self, h]
  simp [hP]

theorem quatRotate_conj (q : Quat) (v : V3) (h : normSq q = 1) :
    quatRotate q v = quatVec (q * pureQuat v * star q) := by
  rw [quatRotate_eq_conj, h]
  ext <;> simp

theorem quatRotate_one (v : V3) : quatRotate (1 : Quat) v = v := by
  ext <;> simp [quatRotate, quatVec, V3.cross]

theorem quatRotate_mul (q1 q2 : Quat) (v : V3)
    (h1 : normSq q1 = 1) (h2 : normSq q2 = 1) :
    quatRotate (q1 * q2) v = quatRotate q1 (quatRotate q2 v) := by
  have h12 : normSq (q1 * q2) = 1 := by rw [map_mul, h1, h2, one_mul]
  rw [quatRotate_conj _ _ h12, quatRotate_conj _ _ h2, quatRotate_conj _ _ h1,
    pureQuat_quatVec _ (conj_re_zero _ _ rfl h2), star_mul]
  congr 1
  simp [mul_assoc]

theorem quatRotate_add (q : Quat) (u v : V3) :
    quatRotate q (u + v) = quatRotate q u + quatRotate q v := by
  ext <;> simp [quatRotate, quatVec, V3.cross] <;> ring

theorem quatRotate_neg (q : Quat) (v : V3) :
    quatRotate q (-v) = -quatRotate q v := by
  ext <;> simp [quatRotate, quatVec, V3.cross] <;> ring

theorem quatRotate_star (q : Quat) (v : V3) (h : normSq q = 1) :
    quatRotate q (quatRotate (star q) v) = v := by
  have hs : normSq (star q) = 1 := by rw [Quaternion.normSq_star, h]
  have h1 : q * star q = 1 := by
    rw [Quaternion.self_mul_star, h]
    norm_num
  rw [← quatRotate_mul _ _ _ h hs, h1, quatRotate_one]

/-! Normalization facts. -/

theorem normSq_of_norm_one (q : Quat) (h : ‖q‖ = 1) : normSq q = 1 := by
  rw [Quaternion.normSq_eq_norm_mul_self, h, one_mul]

theorem qnormalize_of_norm_one (q : Quat) (h : ‖q‖ = 1) : qnormalize q = q := by
  rw [qnormalize, h]
  norm_num

theorem qnormalize_one : qnormalize (1 : Quat) = 1 :=
  qnormalize_of_norm_one 1 norm_one

theorem qnormalize_zero : qnormalize (0 : Quat) = 0 := by simp [qnormalize]

theorem qnormalize_norm (q : Quat) (h : q ≠ 0) : ‖qnormalize q‖ = 1 := by
  rw [qnormalize, norm_smul, Real.norm_eq_abs,
    abs_of_nonneg (inv_nonneg.mpr (norm_nonneg q)),
    inv_mul_cancel₀ (norm_ne_zero_iff.mpr h)]

/-! Facts about Eigen's matrix-to-quaternion conversion. -/

/-- In every branch of Shepperd's method the coefficient written from the
square root is strictly positive, so the conversion never returns the zero
quaternion (for any input matrix, not only rotation matrices). -/
theorem eigenQuatOfMat3_ne_zero (mat : Mat3) : eigenQuatOfMat3 mat ≠ 0 := by
  unfold eigenQuatOfMat3
  by_cases h1 : 0 < mat 0 0 + mat 1 1 + mat 2 2
  · rw [if_pos h1]
    intro h
    have hre := congrArg Quaternion.re h
    have hpos : 0 < Real.sqrt (mat 0 0 + mat 1 1 + mat 2 2 + 1) :=
      Real.sqrt_pos.mpr (by linarith)
    simp only [Quaternion.zero_re] at hre
    nlinarith
  · rw [if_neg h1]
    push_neg at h1
    by_cases h2 : mat 2 2 > (if mat 1 1 > mat 0 0 then mat 1 1 else mat 0 0)
    · rw [if_pos h2]
      have hge : mat 0 0 ≤ mat 2 2 ∧ mat 1 1 ≤ mat 2 2 := by
        by_cases hio : mat 1 1 > mat 0 0
        · rw [if_pos hio] at h2
          exact ⟨by linarith, by linarith⟩
        · rw [if_neg hio] at h2
          push_neg at hio
          exact ⟨by linarith, by linarith⟩
      intro h
      have hk := congrArg Quaternion.imK h
      have hpos : 0 < Real.sqrt (mat 2 2 - mat 0 0 - mat 1 1 + 1) :=
        Real.sqrt_pos.mpr (by linarith [hge.1, hge.2])
      simp only [Quaternion.zero_imK] at hk
      nlinarith
    · rw [if_neg h2]
      by_cases h3 : mat 1 1 > mat 0 0
      · rw [if_pos h3]
        rw [if_pos h3] at h2
        push_neg at h2
        intro h
        have hj := congrArg Quaternion.imJ h
        have hpos : 0 < Real.sqrt (mat 1 1 - mat 2 2 - mat 0 0 + 1) :=
          Real.sqrt_pos.mpr (by linarith)
        simp only [Quaternion.zero_imJ] at hj
        nlinarith
      · rw [if_neg h3]
        rw [if_neg h3] at h2
        push_neg at h2 h3
        intro h
        have hi := congrArg Quaternion.imI h
        have hpos : 0 < Real.sqrt (mat 0 0 - mat 1 1 - mat 2 2 + 1) :=
          Real.sqrt_pos.mpr (by linarith)
        simp only [Quaternion.zero_imI] at hi
        nlinarith

/-- The conversion sends the identity rotation matrix to the identity
quaternion. -/
theorem eigenQuatOfMat3_one : eigenQuatOfMat3 (1 : Mat3) = 1 := by
  have hd : ∀ i : Fin 3, (1 : Mat3) i i = 1 := fun i => Matrix.one_apply_eq i
  have hs : Real.sqrt ((1 : ℝ) + 1 + 1 + 1) = 2 := by
    rw [show (1 : ℝ) + 1 + 1 + 1 = 2 ^ 2 by norm_num, Real.sqrt_sq (by norm_num)]
  unfold eigenQuatOfMat3
  rw [if_pos (by rw [hd 0, hd 1, hd 2]; norm_num)]
  ext <;> simp [hs, Matrix.one_apply]

/-! Block structure of the cached homogeneous transform. -/

theorem homogeneous_apply (R : Mat3) (t : V3) (a b : Fin 4) :
    homogeneous R t a b =
      if ha : (a : ℕ) < 3 then
        if hb : (b : ℕ) < 3 then R ⟨a, ha⟩ ⟨b, hb⟩ else t.coord ⟨a, ha⟩
      else if (b : ℕ) < 3 then 0 else 1 := rfl

theorem homogeneous_left (R : Mat3) (t : V3) (i j : Fin 3) :
    homogeneous R t i.castSucc j.castSucc = R i j := by
  rw [homogeneous_apply, dif_pos (by simp [i.isLt]), dif_pos (by simp [j.isLt])]
  simp

theorem homogeneous_right (R : Mat3) (t : V3) (i : Fin 3) :
    homogeneous R t i.castSucc 3 = t.coord i := by
  rw [homogeneous_apply, dif_pos (by simp [i.isLt]), dif_neg (by decide)]
  simp

theorem homogeneous_bottom (R : Mat3) (t : V3) (j : Fin 4) :
    homogeneous R t 3 j = if j = 3 then 1 else 0 := by
  rw [homogeneous_apply, dif_neg (by decide)]
  fin_cases j <;> first
    | rw [if_neg (by decide), if_neg (by decide)]
    | rw [if_neg (by decide), if_pos (by decide)]
    | rw [if_pos (by decide), if_neg (by decide)]

/-- The rotation matrix of the identity quaternion is the identity. -/
theorem toRotationMatrix_one : toRotationMatrix (1 : Quat) = 1 := by
  ext i j
  fin_cases i <;> fin_cases j <;>
    simp [toRotationMatrix, Matrix.one_apply, Matrix.vecHead, Matrix.vecTail]

theorem cacheConsistent_ofQuat (q : Quat) (t : V3) (td : ℝ) :
    cacheConsistent (Pose.ofQuat q t td) := by
  refine ⟨fun i j => ?_, fun i => ?_, fun j => ?_⟩
  · rw [Pose.ofQuat_T, Pose.ofQuat_q, homogeneous_left]
  · rw [Pose.ofQuat_T, Pose.ofQuat_t, homogeneous_right]
  · rw [Pose.ofQuat_T, homogeneous_bottom]

theorem cacheConsistent_ofOdom (o : Odometry) :
    cacheConsistent (Pose.ofOdom o) := by
  refine ⟨fun i j => ?_, fun i => ?_, fun j => ?_⟩
  · exact homogeneous_left _ _ i j
  · exact homogeneous_right _ _ i
  · exact homogeneous_bottom _ _ j

theorem cacheConsistent_identity : cacheConsistent Pose.identity := by
  refine ⟨fun i j => ?_, fun i => ?_, fun j => ?_⟩
  · show (1 : Mat4) i.castSucc j.castSucc = toRotationMatrix (1 : Quat) i j
    rw [toRotationMatrix_one]
    simp [Matrix.one_apply, Fin.castSucc_inj]
  · show (1 : Mat4) i.castSucc 3 = (0 : V3).coord i
    rw [Matrix.one_apply_ne (by intro h; have := congrArg Fin.val h; simp at this; omega)]
    fin_cases i <;> simp [V3.coord]
  · show (1 : Mat4) 3 j = if j = 3 then 1 else 0
    simp [Matrix.one_apply, eq_comm]

theorem cacheConsistent_ofMat3 (R : Mat3) (t : V3) (td : ℝ)
    (hR : toRotationMatrix (eigenQuatOfMat3 R) = R) :
    cacheConsistent (Pose.ofMat3 R t td) := by
  refine ⟨fun i j => ?_, fun i => ?_, fun j => ?_⟩
  · show homogeneous R t i.castSucc j.castSucc = toRotationMatrix (eigenQuatOfMat3 R) i j
    rw [homogeneous_left, hR]
  · exact homogeneous_right _ _ i
  · exact homogeneous_bottom _ _ j

/-! Claim theorems. -/

/-- C3: the odometry constructor reads only the four orientation scalars
and the three position scalars of the record (its result does not depend
on any other field), and the resulting time offset is the default 0. -/
theorem ofOdom_reads_only_pose_fields :
    (∀ o o' : Odometry,
      o.orientation_w = o'.orientation_w → o.orientation_x = o'.orientation_x →
      o.orientation_y = o'.orientation_y → o.orientation_z = o'.orientation_z →
      o.position_x = o'.position_x → o.position_y = o'.position_y →
      o.position_z = o'.position_z → Pose.ofOdom o = Pose.ofOdom o') ∧
    (∀ o : Odometry, (Pose.ofOdom o).td_ = 0) := by
  constructor
  · intro o o' h1 h2 h3 h4 h5 h6 h7
    simp only [Pose.ofOdom, odomQuat]
    rw [h1, h2, h3, h4, h5, h6, h7]
  · intro o
    rfl

/-- C3 witness: two odometry records that agree on the seven geometric
scalars but differ everywhere else produce the same pose, with zero time
offset. -/
theorem ofOdom_reads_only_pose_fields_witness :
    Pose.ofOdom ⟨1, 0, 0, 0, 5, 6, 7, 10, ⟨1, 1, 1⟩, ⟨2, 2, 2⟩, fun _ => 3, fun _ => 4⟩ =
      Pose.ofOdom ⟨1, 0, 0, 0, 5, 6, 7, 99, ⟨8, 8, 8⟩, ⟨9, 9, 9⟩, fun _ => 0, fun _ => 0⟩ ∧
    (Pose.ofOdom ⟨1, 0, 0, 0, 5, 6, 7, 10, ⟨1, 1, 1⟩, ⟨2, 2, 2⟩, fun _ => 3, fun _ => 4⟩).td_ = 0 :=
  ⟨ofOdom_reads_only_pose_fields.1 _ _ rfl rfl rfl rfl rfl rfl rfl,
    ofOdom_reads_only_pose_fields.2 _⟩

/-- C4: for unit-norm inputs (the class invariant), `poseTransform`
returns rotation `q1 * q2`, translation `q1 * t2 + t1` (Eigen's
quaternion action on the vector), and the defaulted zero time offset. -/
theorem poseTransform_spec (pose1 pose2 : Pose)
    (h1 : ‖pose1.q_‖ = 1) (h2 : ‖pose2.q_‖ = 1) :
    (Pose.poseTransform pose1 pose2).q_ = pose1.q_ * pose2.q_ ∧
    (Pose.poseTransform pose1 pose2).t_ = quatRotate pose1.q_ pose2.t_ + pose1.t_ ∧
    (Pose.poseTransform pose1 pose2).td_ = 0 := by
  refine ⟨?_, rfl, rfl⟩
  show qnormalize (pose1.q_ * pose2.q_) = pose1.q_ * pose2.q_
  exact qnormalize_of_norm_one _ (by rw [norm_mul, h1, h2, one_mul])

/-- C4 witness: the composition formula evaluated at two identity poses. -/
theorem poseTransform_spec_witness :
    ‖Pose.identity.q_‖ = 1 ∧
    ((Pose.poseTransform Pose.identity Pose.identity).q_ =
        Pose.identity.q_ * Pose.identity.q_ ∧
      (Pose.poseTransform Pose.identity Pose.identity).t_ =
        quatRotate Pose.identity.q_ Pose.identity.t_ + Pose.identity.t_ ∧
      (Pose.poseTransform Pose.identity Pose.identity).td_ = 0) :=
  ⟨norm_one, poseTransform_spec Pose.identity Pose.identity norm_one norm_one⟩

/-- C5: the infix operator form is definitionally the same construction as
`poseTransform` — equal rotation, translation, cached transform and time
offset for all inputs. -/
theorem mul_eq_poseTransform (p1 p2 : Pose) :
    p1 * p2 = Pose.poseTransform p1 p2 := rfl

/-- C6: composing a unit-norm pose with its inverse gives the identity
rotation and zero translation (the time offset is ignored). -/
theorem compose_inverse (p : Pose) (h : ‖p.q_‖ = 1) :
    (Pose.poseTransform p p.inverse).q_ = 1 ∧
    (Pose.poseTransform p p.inverse).t_ = 0 := by
  have hn : normSq p.q_ = 1 := normSq_of_norm_one _ h
  have hinv : eigenQuatInv p.q_ = star p.q_ := by
    rw [eigenQuatInv, hn]
    norm_num
  have hstar : ‖star p.q_‖ = 1 := by rw [Quaternion.norm_star, h]
  constructor
  · show qnormalize (p.q_ * qnormalize (eigenQuatInv p.q_)) = 1
    rw [hinv, qnormalize_of_norm_one _ hstar, Quaternion.self_mul_star, hn]
    norm_num [qnormalize_one]
  · show quatRotate p.q_ (-(quatRotate (eigenQuatInv p.q_) p.t_)) + p.t_ = 0
    rw [hinv, quatRotate_neg, quatRotate_star _ _ hn]
    ext <;> simp

/-- C6 witness: the inverse law evaluated at a concrete pose. -/
theorem compose_inverse_witness :
    ‖(Pose.ofQuat 1 ⟨1, 2, 3⟩ 5).q_‖ = 1 ∧
    ((Pose.poseTransform (Pose.ofQuat 1 ⟨1, 2, 3⟩ 5)
        (Pose.ofQuat 1 ⟨1, 2, 3⟩ 5).inverse).q_ = 1 ∧
      (Pose.poseTransform (Pose.ofQuat 1 ⟨1, 2, 3⟩ 5)
        (Pose.ofQuat 1 ⟨1, 2, 3⟩ 5).inverse).t_ = 0) := by
  have h : ‖(Pose.ofQuat 1 ⟨1, 2, 3⟩ 5).q_‖ = 1 := by
    rw [Pose.ofQuat_q, qnormalize_one, norm_one]
  exact ⟨h, compose_inverse _ h⟩

/-- C7: composition of unit-norm poses is associative in rotation and
translation. -/
theorem poseTransform_assoc (a b c : Pose)
    (ha : ‖a.q_‖ = 1) (hb : ‖b.q_‖ = 1) (hc : ‖c.q_‖ = 1) :
    (Pose.poseTransform (Pose.poseTransform a b) c).q_ =
      (Pose.poseTransform a (Pose.poseTransform b c)).q_ ∧
    (Pose.poseTransform (Pose.poseTransform a b) c).t_ =
      (Pose.poseTransform a (Pose.poseTransform b c)).t_ := by
  have hab : (Pose.poseTransform a b).q_ = a.q_ * b.q_ :=
    (poseTransform_spec a b ha hb).1
  have hbc : (Pose.poseTransform b c).q_ = b.q_ * c.q_ :=
    (poseTransform_spec b c hb hc).1
  constructor
  · show qnormalize ((Pose.poseTransform a b).q_ * c.q_) =
      qnormalize (a.q_ * (Pose.poseTransform b c).q_)
    rw [hab, hbc, mul_assoc]
  · show quatRotate (Pose.poseTransform a b).q_ c.t_ +
        (quatRotate a.q_ b.t_ + a.t_) =
      quatRotate a.q_ (quatRotate b.q_ c.t_ + b.t_) + a.t_
    rw [hab, quatRotate_mul _ _ _ (normSq_of_norm_one _ ha) (normSq_of_norm_one _ hb),
      quatRotate_add]
    ext <;> simp <;> ring

/-- C7 witness: associativity evaluated at three concrete unit-norm poses. -/
theorem poseTransform_assoc_witness :
    ‖Pose.identity.q_‖ = 1 ∧ ‖(Pose.ofQuat 1 ⟨1, 0, 0⟩ 0).q_‖ = 1 ∧
    ((Pose.poseTransform (Pose.poseTransform Pose.identity (Pose.ofQuat 1 ⟨1, 0, 0⟩ 0))
        Pose.identity).q_ =
      (Pose.poseTransform Pose.identity
        (Pose.poseTransform (Pose.ofQuat 1 ⟨1, 0, 0⟩ 0) Pose.identity)).q_ ∧
     (Pose.poseTransform (Pose.poseTransform Pose.identity (Pose.ofQuat 1 ⟨1, 0, 0⟩ 0))
        Pose.identity).t_ =
      (Pose.poseTransform Pose.identity
        (Pose.poseTransform (Pose.ofQuat 1 ⟨1, 0, 0⟩ 0) Pose.identity)).t_) := by
  have h : ‖(Pose.ofQuat 1 ⟨1, 0, 0⟩ 0).q_‖ = 1 := by
    rw [Pose.ofQuat_q, qnormalize_one, norm_one]
  exact ⟨norm_one, h, poseTransform_assoc _ _ _ norm_one h norm_one⟩

/-- C1 counterexample: the odometry constructor stores the input
quaternion without normalizing, so a non-unit input quaternion yields a
stored rotation of norm 2, not 1. -/
theorem odom_rotation_not_normalized :
    ‖(Pose.ofOdom ⟨2, 0, 0, 0, 0, 0, 0, 0, 0, 0, fun _ => 0, fun _ => 0⟩).q_‖ ≠ 1 := by
  have hq : (Pose.ofOdom ⟨2, 0, 0, 0, 0, 0, 0, 0, 0, 0, fun _ => 0, fun _ => 0⟩).q_ =
      ((2 : ℝ) : Quat) := by
    rw [Pose.ofOdom_q]
    ext <;> simp [odomQuat]
  rw [hq, Quaternion.norm_coe]
  norm_num

/-- C1 (amended): the quaternion constructor and the 4×4-matrix
constructor normalize, so they store a unit-norm rotation (for any
nonzero input quaternion; for the 4×4 path unconditionally, because
Eigen's conversion never returns the zero quaternion); the odometry and
3×3-matrix constructors store the derived quaternion without
renormalizing, so for them the invariant holds exactly when that
quaternion is already unit. -/
theorem constructed_rotation_norm :
    (∀ (q : Quat) (t : V3) (td : ℝ), q ≠ 0 → ‖(Pose.ofQuat q t td).q_‖ = 1) ∧
    (∀ (T : Mat4) (td : ℝ), ‖(Pose.ofMat4 T td).q_‖ = 1) ∧
    (∀ o : Odometry, ‖odomQuat o‖ = 1 → ‖(Pose.ofOdom o).q_‖ = 1) ∧
    (∀ (R : Mat3) (t : V3) (td : ℝ), ‖eigenQuatOfMat3 R‖ = 1 →
      ‖(Pose.ofMat3 R t td).q_‖ = 1) := by
  refine ⟨fun q t td hq => ?_, fun T td => ?_, fun o h => ?_, fun R t td h => ?_⟩
  · rw [Pose.ofQuat_q]
    exact qnormalize_norm q hq
  · rw [Pose.ofMat4_q]
    exact qnormalize_norm _ (eigenQuatOfMat3_ne_zero _)
  · rw [Pose.ofOdom_q]
    exact h
  · rw [Pose.ofMat3_q]
    exact h

/-- C1 witness: each clause of the amended statement instantiated at a
concrete input with its hypothesis discharged. -/
theorem constructed_rotation_norm_witness :
    ‖(Pose.ofQuat 1 0 0).q_‖ = 1 ∧ ‖(Pose.ofMat4 1 0).q_‖ = 1 ∧
    ‖(Pose.ofOdom ⟨1, 0, 0, 0, 0, 0, 0, 0, 0, 0, fun _ => 0, fun _ => 0⟩).q_‖ = 1 ∧
    ‖(Pose.ofMat3 1 0 0).q_‖ = 1 := by
  have ho : ‖odomQuat ⟨1, 0, 0, 0, 0, 0, 0, 0, 0, 0, fun _ => 0, fun _ => 0⟩‖ = 1 := by
    have h1 : odomQuat ⟨1, 0, 0, 0, 0, 0, 0, 0, 0, 0, fun _ => 0, fun _ => 0⟩ = 1 := by
      ext <;> simp [odomQuat]
    rw [h1, norm_one]
  have hm : ‖eigenQuatOfMat3 (1 : Mat3)‖ = 1 := by rw [eigenQuatOfMat3_one, norm_one]
  exact ⟨constructed_rotation_norm.1 1 0 0 one_ne_zero,
    constructed_rotation_norm.2.1 1 0,
    constructed_rotation_norm.2.2.1 _ ho,
    constructed_rotation_norm.2.2.2 1 0 0 hm⟩

/-- C9 counterexample: the 4×4 constructor copies the input matrix into
the cache verbatim; with bottom row `(0 0 0 2)` the cached transform
violates the bottom-row condition of the consistency invariant. -/
theorem cache_diverges_ofMat4 :
    ¬ cacheConsistent (Pose.ofMat4
      (Matrix.of ![![1, 0, 0, 0], ![0, 1, 0, 0], ![0, 0, 1, 0], ![0, 0, 0, 2]]) 0) := by
  rintro ⟨-, -, h3⟩
  have h := h3 3
  rw [if_pos rfl, Pose.ofMat4_T] at h
  simp [Matrix.vecHead, Matrix.vecTail] at h

/-- C9 (amended): the default, quaternion and odometry constructors leave
the cache consistent with the stored rotation and translation
unconditionally; the 3×3-matrix constructor writes the input matrix into
the rotation block, so it is consistent exactly when that matrix equals
the rotation matrix of the converted quaternion (e.g. a true rotation
matrix); the 4×4 constructor copies the input matrix verbatim, so its
cache is the input itself, consistent only for inputs that are already
consistent homogeneous transforms. -/
theorem cache_consistency :
    (∀ (q : Quat) (t : V3) (td : ℝ), cacheConsistent (Pose.ofQuat q t td)) ∧
    (∀ o : Odometry, cacheConsistent (Pose.ofOdom o)) ∧
    cacheConsistent Pose.identity ∧
    (∀ (R : Mat3) (t : V3) (td : ℝ), toRotationMatrix (eigenQuatOfMat3 R) = R →
      cacheConsistent (Pose.ofMat3 R t td)) ∧
    (∀ (T : Mat4) (td : ℝ), (Pose.ofMat4 T td).T_ = T) :=
  ⟨cacheConsistent_ofQuat, cacheConsistent_ofOdom, cacheConsistent_identity,
    cacheConsistent_ofMat3, fun _ _ => rfl⟩

/-- C9 witness: the conditional 3×3 clause instantiated at the identity
rotation matrix, whose conversion round-trips exactly. -/
theorem cache_consistency_witness :
    cacheConsistent (Pose.ofQuat 1 0 0) ∧ cacheConsistent (Pose.ofMat3 1 0 0) := by
  refine ⟨cache_consistency.1 1 0 0, cache_consistency.2.2.2.1 1 0 0 ?_⟩
  rw [eigenQuatOfMat3_one, toRotationMatrix_one]

/-- C2: `computeMeanPose` has no guard for an empty collection or for an
all-zero-weight collection: the total weight is 0 and the function still
divides by it (with C++ doubles this is `0/0 = NaN`; in this exact-real
model division by zero gives the junk value 0), storing the zero
quaternion — neither an error signal nor the identity fallback. -/
theorem computeMeanPose_degenerate :
    weightTotal [] = 0 ∧ (computeMeanPose []).q_ = 0 ∧ (computeMeanPose []).q_ ≠ 1 ∧
    weightTotal [((0 : ℝ), Pose.identity)] = 0 ∧
    (computeMeanPose [((0 : ℝ), Pose.identity)]).q_ = 0 := by
  have hmk : (⟨(0 : ℝ), 0, 0, 0⟩ : Quat) = 0 := by ext <;> simp
  have hq1 : (computeMeanPose []).q_ = 0 := by
    simp [computeMeanPose, weightTotal, hmk, qnormalize_zero]
  have hq2 : (computeMeanPose [((0 : ℝ), Pose.identity)]).q_ = 0 := by
    simp [computeMeanPose, weightTotal, hmk, qnormalize_zero]
  refine ⟨rfl, hq1, ?_, by norm_num [weightTotal], hq2⟩
  rw [hq1]
  exact zero_ne_one

/-- C8: averaging two poses with equal stored rotation (unit-norm, per the
class invariant) and equal weights 1 gives the arithmetic mean of the two
translations and the common rotation. -/
theorem computeMeanPose_equal_rotation (p1 p2 : Pose)
    (hq : p1.q_ = p2.q_) (h1 : ‖p1.q_‖ = 1) :
    (computeMeanPose [(1, p1), (1, p2)]).t_ = ((1 : ℝ) / 2) • (p1.t_ + p2.t_) ∧
    (computeMeanPose [(1, p1), (1, p2)]).q_ = p1.q_ := by
  constructor
  · show V3.divR (0 + (1 : ℝ) • p1.t_ + (1 : ℝ) • p2.t_) (0 + 1 + 1) =
      ((1 : ℝ) / 2) • (p1.t_ + p2.t_)
    ext <;> simp [V3.divR] <;> ring
  · show qnormalize ⟨(0 + 1 * p1.q_.re + 1 * p2.q_.re) / (0 + 1 + 1),
      (0 + 1 * p1.q_.imI + 1 * p2.q_.imI) / (0 + 1 + 1),
      (0 + 1 * p1.q_.imJ + 1 * p2.q_.imJ) / (0 + 1 + 1),
      (0 + 1 * p1.q_.imK + 1 * p2.q_.imK) / (0 + 1 + 1)⟩ = p1.q_
    rw [← hq]
    have hmean : (⟨(0 + 1 * p1.q_.re + 1 * p1.q_.re) / (0 + 1 + 1),
        (0 + 1 * p1.q_.imI + 1 * p1.q_.imI) / (0 + 1 + 1),
        (0 + 1 * p1.q_.imJ + 1 * p1.q_.imJ) / (0 + 1 + 1),
        (0 + 1 * p1.q_.imK + 1 * p1.q_.imK) / (0 + 1 + 1)⟩ : Quat) = p1.q_ := by
      ext <;> simp <;> ring
    rw [hmean]
    exact qnormalize_of_norm_one _ h1

/-- C8 witness: the concrete example of the spec — equal weights 1,
identity rotations, translations `(0,0,0)` and `(2,0,0)` — yields mean
translation `(1,0,0)` and identity rotation. -/
theorem computeMeanPose_equal_rotation_witness :
    (Pose.ofQuat 1 ⟨0, 0, 0⟩ 0).q_ = (Pose.ofQuat 1 ⟨2, 0, 0⟩ 0).q_ ∧
    ‖(Pose.ofQuat 1 ⟨0, 0, 0⟩ 0).q_‖ = 1 ∧
    (computeMeanPose [(1, Pose.ofQuat 1 ⟨0, 0, 0⟩ 0),
      (1, Pose.ofQuat 1 ⟨2, 0, 0⟩ 0)]).t_ = ⟨1, 0, 0⟩ ∧
    (computeMeanPose [(1, Pose.ofQuat 1 ⟨0, 0, 0⟩ 0),
      (1, Pose.ofQuat 1 ⟨2, 0, 0⟩ 0)]).q_ = 1 := by
  have hq : (Pose.ofQuat 1 ⟨0, 0, 0⟩ 0).q_ = (Pose.ofQuat 1 ⟨2, 0, 0⟩ 0).q_ := rfl
  have h1 : ‖(Pose.ofQuat 1 ⟨0, 0, 0⟩ 0).q_‖ = 1 := by
    rw [Pose.ofQuat_q, qnormalize_one, norm_one]
  obtain ⟨ht, hrot⟩ := computeMeanPose_equal_rotation _ _ hq h1
  refine ⟨hq, h1, ?_, ?_⟩
  · rw [ht]
    ext <;> simp
  · rw [hrot, Pose.ofQuat_q, qnormalize_one]

/-- Replacing each entry's time offset does not change any of the folds of
`computeMeanPose`, because they read only the weight and the pose's
rotation and translation. -/
theorem foldl_map_td {α : Type} (g : α → ℝ × Pose → α)
    (hg : ∀ (a : α) (w : ℝ) (p : Pose) (td : ℝ), g a (w, { p with td_ := td }) = g a (w, p))
    (f : ℝ × Pose → ℝ) (l : List (ℝ × Pose)) (init : α) :
    (l.map fun wp => (wp.1, { wp.2 with td_ := f wp })).foldl g init = l.foldl g init := by
  induction l generalizing init with
  | nil => rfl
  | cons hd tl ih =>
    simp only [List.map_cons, List.foldl_cons, hg]
    exact ih _

/-- C10: for a nonempty collection with nonzero total weight the mean
pose's time offset is the default 0, and the result is unchanged if every
input pose's time offset is replaced arbitrarily — the averaging never
reads the offsets. -/
theorem computeMeanPose_td (pose_array : List (ℝ × Pose)) (f : ℝ × Pose → ℝ)
    (hne : pose_array ≠ []) (hw : weightTotal pose_array ≠ 0) :
    (computeMeanPose pose_array).td_ = 0 ∧
    computeMeanPose (pose_array.map fun wp => (wp.1, { wp.2 with td_ := f wp })) =
      computeMeanPose pose_array := by
  refine ⟨rfl, ?_⟩
  simp only [computeMeanPose, weightTotal]
  rw [foldl_map_td (fun acc wp => acc + wp.1) (fun _ _ _ _ => rfl) f,
    foldl_map_td (fun acc wp => acc + wp.1 • wp.2.t_) (fun _ _ _ _ => rfl) f,
    foldl_map_td (fun acc wp => acc + wp.1 * wp.2.q_.imI) (fun _ _ _ _ => rfl) f,
    foldl_map_td (fun acc wp => acc + wp.1 * wp.2.q_.imJ) (fun _ _ _ _ => rfl) f,
    foldl_map_td (fun acc wp => acc + wp.1 * wp.2.q_.imK) (fun _ _ _ _ => rfl) f,
    foldl_map_td (fun acc wp => acc + wp.1 * wp.2.q_.re) (fun _ _ _ _ => rfl) f]

/-- C10 witness: a singleton collection with weight 1 and its time offset
rewritten to 42. -/
theorem computeMeanPose_td_witness :
    ([((1 : ℝ), Pose.identity)] ≠ []) ∧ weightTotal [((1 : ℝ), Pose.identity)] ≠ 0 ∧
    ((computeMeanPose [((1 : ℝ), Pose.identity)]).td_ = 0 ∧
      computeMeanPose ([((1 : ℝ), Pose.identity)].map
          fun wp => (wp.1, { wp.2 with td_ := 42 })) =
        computeMeanPose [((1 : ℝ), Pose.identity)]) := by
  have hne : ([((1 : ℝ), Pose.identity)] : List (ℝ × Pose)) ≠ [] := by simp
  have hw : weightTotal [((1 : ℝ), Pose.identity)] ≠ 0 := by norm_num [weightTotal]
  exact ⟨hne, hw, computeMeanPose_td _ (fun _ => 42) hne hw⟩

end
